import Mathlib

/-!
# LfD — Localisation from Detections: formal verification development

A shallow embedding of the LfD pipeline (patharanordev/LfD).  The driver
script `main.dev.py` contains the Visibility Resolver (the loop deriving the
`visibility` matrix from the bounding-box array `bbs`) and the hard-coded
bounding-box data; those parts are embedded here directly from the source.
The estimator (`lfd_dev.compute_estimates`), the bounding-box-to-ellipse
converter and the forward projector live in modules that are not part of the
available sources, so they are modelled from the specification (each such
definition carries a doc comment starting with `Modelled from the spec:`).

Numeric values are embedded as rationals (`ℚ`): every IEEE double is a
rational, and the only equality tests performed by the embedded code
(comparison with the integer sentinel box `[1, 1, 1, 2]`) have the same
outcome over `ℚ` as over doubles.
-/

open Matrix

abbrev Mat3 := Matrix (Fin 3) (Fin 3) ℚ

abbrev Mat34 := Matrix (Fin 3) (Fin 4) ℚ

abbrev Mat4 := Matrix (Fin 4) (Fin 4) ℚ

/-- `NUM_BB_CORNER = 4  # [X0, Y0, X1, Y1]` from `main.dev.py`. -/
def NUM_BB_CORNER : Nat := 4

/-- The sentinel bounding box `[1, 1, 1, 2]` marking "no detection"
(`main.dev.py`, line 178). -/
def sentinelBox : List ℚ := [1, 1, 1, 2]

/-- The slice `bb[i*NUM_BB_CORNER : i*NUM_BB_CORNER+NUM_BB_CORNER]` of a
per-frame row of the bounding-box array: the 4-value box of object `i`. -/
def objBox (bb : List ℚ) (i : Nat) : List ℚ :=
  (bb.drop (i * NUM_BB_CORNER)).take NUM_BB_CORNER

/-- One iteration of the Visibility Resolver loop of `main.dev.py`
(lines 173–183): for `i in range(int(len(bb)/NUM_BB_CORNER))`, append `False`
when the slice equals the sentinel `[1,1,1,2]` (via `np.array_equal`) and
`True` otherwise. -/
def visibilityRow (bb : List ℚ) : List Bool :=
  (List.range (bb.length / NUM_BB_CORNER)).map
    (fun i => decide (objBox bb i ≠ sentinelBox))

/-- The full Visibility Resolver (`main.dev.py`, lines 173–185): one boolean
row per frame row of `bbs`. -/
def visibility (bbs : List (List ℚ)) : List (List Bool) := bbs.map visibilityRow

/-- The hard-coded bounding-box array `bbs` of `main.dev.py` (lines 113–161):
8 frames, 6 objects × 4 values per row.  In frame 0, objects 0 and 3 carry
real boxes and the other four objects carry the sentinel `[1,1,1,2]`. -/
def bbsAldoma : List (List ℚ) := [
  [368.97869873, 241.3981781 , 429.3835144 , 309.05929565,
   1, 1, 1, 2,
   1, 1, 1, 2,
   394.25811768, 323.92715454, 480.84927368, 399.02444458,
   1, 1, 1, 2,
   1, 1, 1, 2],
  [268.71255493, 264.70092773, 338.02108765, 337.12896729,
   345.15518188, 286.14849854, 421.89260864, 356.74407959,
   210.70513916, 339.22924805, 276.33981323, 433.44143677,
   275.58880615, 357.95248413, 366.25387573, 438.51266479,
   233.23313904, 222.92678833, 268.73962402, 286.59417725,
   179.23153687, 274.41543579, 220.40000916, 343.59829712],
  [319.09350586, 278.32012939, 395.9881897 , 339.9385376 ,
   379.24969482, 329.80615234, 466.75039673, 386.69143677,
   217.56640625, 321.81710815, 299.9659729 , 406.78347778,
   273.675354  , 374.83673096, 360.96035767, 434.42593384,
   312.9446106 , 216.79870605, 344.60357666, 280.54574585,
   239.91426086, 248.05413818, 275.54110718, 314.31283569],
  [315.36114502, 316.1701355 , 394.37454224, 368.28683472,
   347.30505371, 378.78378296, 440.44546509, 453.36904907,
   188.36791992, 331.16345215, 276.43658447, 404.6635437 ,
   214.55780029, 385.59359741, 310.82644653, 468.81610107,
   335.87738037, 238.62005615, 369.57720947, 304.73086548,
   250.55516052, 252.22273254, 286.06552124, 319.73846436],
  [256.47576904, 320.72235107, 340.13830566, 386.76333618,
   252.72369385, 390.62054443, 347.45266724, 484.88293457,
   133.39767456, 320.96795654, 218.39674377, 377.56646729,
   132.30621338, 366.24981689, 219.84518433, 459.68603516,
   309.29263306, 250.46266174, 343.53515625, 317.23831177,
   222.79190063, 246.48374939, 258.72210693, 313.45471191],
  [347.63970947, 286.10244751, 421.15863037, 366.22714233,
   305.4281311 , 339.4513855 , 369.14886475, 436.16751099,
   259.60656738, 244.6635437 , 330.96289062, 305.32406616,
   241.35693359, 277.95428467, 285.89572144, 357.82327271,
   424.29995728, 245.79014587, 465.02682495, 313.96707153,
   358.36880493, 212.25823975, 391.81015015, 275.21115112],
  [286.1980896 , 289.27526855, 366.60769653, 373.68130493,
   246.02645874, 357.13134766, 322.96966553, 464.18991089,
   182.73692322, 254.81884766, 265.10748291, 316.26983643,
   165.15997314, 295.33834839, 224.18908691, 387.36245728,
   364.89892578, 236.72938538, 404.25271606, 307.05389404,
   289.40112305, 206.87263489, 324.01483154, 273.34524536],
  [313.42510986, 289.61465454, 398.50708008, 364.82751465,
   298.51138306, 360.96524048, 390.03161621, 462.4954834 ,
   195.63148499, 277.24972534, 278.10684204, 329.93252563,
   189.6361084 , 318.38220215, 266.52435303, 412.45333862,
   374.65100098, 225.24407959, 413.30654907, 293.85787964,
   291.13165283, 210.01704407, 325.08905029, 276.91616821]]

/-- A small demonstration row: object 0 carries the sentinel box, object 1 a
real box. -/
def demoRow : List ℚ := [1, 1, 1, 2, 5, 6, 7, 8]

/-- A demonstration row with 10 values: two complete groups of four and two
trailing values. -/
def demoRowTrailing : List ℚ := [1, 1, 1, 2, 5, 6, 7, 8, 9, 9]

/-- Modelled from the spec: the Bounding-Box-to-Ellipse Converter (spec §4.1),
implemented in the `lfd_dev` module which is not among the available sources.
The inscribed axis-aligned ellipse of the box `(x0, y0, x1, y1)` in dual-conic
form: the dual conic `diag(a², b², −1)` of the centred ellipse with semi-axes
`a = (x1−x0)/2`, `b = (y1−y0)/2`, translated to the box centre. -/
def bboxToEllipse (x0 y0 x1 y1 : ℚ) : Mat3 :=
  !![1, 0, (x0 + x1) / 2; 0, 1, (y0 + y1) / 2; 0, 0, 1] *
    Matrix.diagonal ![((x1 - x0) / 2) ^ 2, ((y1 - y0) / 2) ^ 2, -1] *
    (!![1, 0, (x0 + x1) / 2; 0, 1, (y0 + y1) / 2; 0, 0, 1])ᵀ

/-- Modelled from the spec: the converter applied to a raw 4-value slice of
the bounding-box array; a slice that does not consist of exactly four values
yields no ellipse. -/
def boxToEllipse? (b : List ℚ) : Option Mat3 :=
  match b with
  | [x0, y0, x1, y1] => some (bboxToEllipse x0 y0 x1 y1)
  | _ => none

/-- Modelled from the spec: the Camera Model's derived projection matrix
`P = K · M` (spec §3). -/
def projM (K : Mat3) (M : Mat34) : Mat34 := K * M

/-- Modelled from the spec: the projection relation `P · Q · Pᵗ` taking a
dual quadric to the dual conic of its image in the view with projection
matrix `P` (spec §4.4). -/
def projQ (P : Mat34) (Q : Mat4) : Mat3 := P * Q * Pᵀ

/-- The `k`-th standard basis vector of the 10-dimensional space of
independent entries of a symmetric 4×4 matrix. -/
def basisVec (k : Fin 10) : Fin 10 → ℚ := fun j => if j = k then 1 else 0

/-- Modelled from the spec: reshaping the 10-vector of unknowns back into a
symmetric 4×4 dual quadric (spec §4.3, step 5). -/
def symFromVec (x : Fin 10 → ℚ) : Mat4 :=
  !![x 0, x 1, x 2, x 3;
     x 1, x 4, x 5, x 6;
     x 2, x 5, x 7, x 8;
     x 3, x 6, x 8, x 9]

/-- The 10 independent entries of a symmetric 4×4 matrix, as a vector. -/
def vecOfSym (Q : Mat4) : Fin 10 → ℚ :=
  ![Q 0 0, Q 0 1, Q 0 2, Q 0 3, Q 1 1, Q 1 2, Q 1 3, Q 2 2, Q 2 3, Q 3 3]

/-- The 15 unordered pairs of distinct upper-triangle entry positions of a
3×3 symmetric matrix, used for the scale-eliminating cross-multiplication
(spec §4.3, step 3). -/
def entryPairs : List ((Fin 3 × Fin 3) × (Fin 3 × Fin 3)) := [
  ((0, 0), (0, 1)), ((0, 0), (0, 2)), ((0, 0), (1, 1)), ((0, 0), (1, 2)),
  ((0, 0), (2, 2)),
  ((0, 1), (0, 2)), ((0, 1), (1, 1)), ((0, 1), (1, 2)), ((0, 1), (2, 2)),
  ((0, 2), (1, 1)), ((0, 2), (1, 2)), ((0, 2), (2, 2)),
  ((1, 1), (1, 2)), ((1, 1), (2, 2)),
  ((1, 2), (2, 2))]

/-- Modelled from the spec: the scale-free linear constraint rows contributed
by one view (spec §4.3, step 3).  For each pair of entry positions `(u, v)`,
cross-multiplying the observed dual conic `C` with the projected quadric
eliminates the per-view scalar: the row maps the unknown vector coordinate
`k` to the coefficient `C_u · (P·Q_k·Pᵗ)_v − C_v · (P·Q_k·Pᵗ)_u` where `Q_k`
is the `k`-th symmetric basis matrix. -/
def viewRows (C : Mat3) (P : Mat34) : List (Fin 10 → ℚ) :=
  entryPairs.map (fun pq k =>
    C pq.1.1 pq.1.2 * projQ P (symFromVec (basisVec k)) pq.2.1 pq.2.2 -
      C pq.2.1 pq.2.2 * projQ P (symFromVec (basisVec k)) pq.1.1 pq.1.2)

/-- Modelled from the spec: the stacked homogeneous system `A·x = 0` built
from all visible views of one object (spec §4.3, step 3). -/
def systemRows (obs : List (Mat3 × Mat34)) : List (Fin 10 → ℚ) :=
  (obs.map (fun cp => viewRows cp.1 cp.2)).flatten

/-- A vector `x` lies in the null space of the stacked system: every row
dotted with `x` vanishes. -/
def inNullSpace (rows : List (Fin 10 → ℚ)) (x : Fin 10 → ℚ) : Prop :=
  ∀ r ∈ rows, (∑ k, r k * x k) = 0

/-- The translation-factored block of a dual quadric with block structure
`Q = [A b; bᵀ c]`: the Schur complement `A − (1/c)·b·bᵀ` of the homogeneous
entry `c = Q 3 3`.  This is what is left of the non-homogeneous 3×3 block
after the translation encoded in `b` is factored out: for the dual of the
ellipsoid `(x−m)ᵀ·S·(x−m) = 1`, which is `[S⁻¹ − m·mᵀ, −m; −mᵀ, −1]` up to
scale, this block is `S⁻¹` whatever the centre `m` is. -/
def centeredBlock (Q : Mat4) : Mat3 :=
  !![Q 0 0 - Q 0 3 * Q 0 3 / Q 3 3, Q 0 1 - Q 0 3 * Q 1 3 / Q 3 3,
       Q 0 2 - Q 0 3 * Q 2 3 / Q 3 3;
     Q 1 0 - Q 1 3 * Q 0 3 / Q 3 3, Q 1 1 - Q 1 3 * Q 1 3 / Q 3 3,
       Q 1 2 - Q 1 3 * Q 2 3 / Q 3 3;
     Q 2 0 - Q 2 3 * Q 0 3 / Q 3 3, Q 2 1 - Q 2 3 * Q 1 3 / Q 3 3,
       Q 2 2 - Q 2 3 * Q 2 3 / Q 3 3]

/-- The leading principal 1×1 minor of a 3×3 block. -/
def dminor1 (B : Mat3) : ℚ := B 0 0

/-- The leading principal 2×2 minor of a 3×3 block. -/
def dminor2 (B : Mat3) : ℚ := B 0 0 * B 1 1 - B 0 1 * B 1 0

/-- The leading principal 3×3 minor (determinant) of a 3×3 block. -/
def dminor3 (B : Mat3) : ℚ :=
  B 0 0 * (B 1 1 * B 2 2 - B 1 2 * B 2 1) -
    B 0 1 * (B 1 0 * B 2 2 - B 1 2 * B 2 0) +
    B 0 2 * (B 1 0 * B 2 1 - B 1 1 * B 2 0)

/-- Modelled from the spec: the physical-plausibility check of the candidate
quadric (spec §4.3, step 6) — after factoring out the scale/translation
structure of the dual representation (the homogeneous entry `Q 3 3` must be
nonzero, else the surface is unbounded, and the translation is removed by
passing to the Schur complement `centeredBlock`), the remaining 3×3 block
must be definite in the consistent orientation, expressed by Sylvester's
criterion on its leading principal minors.  The flipped candidate `−Q` has
the opposite orientation (`centeredBlock (−Q) = −centeredBlock Q`), so
step 6's flip-and-recheck is meaningful. -/
def validEllipsoid (Q : Mat4) : Bool :=
  decide (Q 3 3 ≠ 0) && decide (0 < dminor1 (centeredBlock Q)) &&
    decide (0 < dminor2 (centeredBlock Q)) &&
    decide (0 < dminor3 (centeredBlock Q))

/-- Modelled from the spec: canonical scale normalization of a dual conic —
the reference entry `C 2 2` is brought to `−1` when it is nonzero
(spec §4.1/§4.4). -/
def normalizeC (C : Mat3) : Mat3 :=
  if C 2 2 = 0 then C else (-(C 2 2)⁻¹) • C

/-- Modelled from the spec: canonical scale normalization of a dual quadric —
the reference entry `Q 3 3` is brought to `−1` when it is nonzero
(spec §4.3, step 5). -/
def normalizeQ (Q : Mat4) : Mat4 :=
  if Q 3 3 = 0 then Q else (-(Q 3 3)⁻¹) • Q

/-- The homogeneous least-squares solver (spec §4.3, step 4) is a numeric SVD
in the original system; it is abstracted here as a function from the stacked
rows to a candidate solution vector. -/
abbrev Solver := List (Fin 10 → ℚ) → Fin 10 → ℚ

/-- A solver whose answer depends only on the solution set of the system it
is given — the behaviour the spec ascribes to the SVD step in the exactly
consistent (noiseless) case, where the answer is the null-space direction
(spec §4.3, step 4). -/
def KernelRespecting (solve : Solver) : Prop :=
  ∀ rs1 rs2 : List (Fin 10 → ℚ),
    (∀ x, inNullSpace rs1 x ↔ inNullSpace rs2 x) → solve rs1 = solve rs2

/-- Modelled from the spec: the per-object Dual-Quadric Estimator
(spec §4.3).  Fewer than 3 visible frames yield the undefined sentinel
(`none`, standing for the all-NaN quadric); otherwise the stacked system is
solved, the solution reshaped into a symmetric candidate, validated (with the
sign flip allowed by the scale ambiguity) and scale-normalized; a candidate
failing validation both ways is degenerate and yields the sentinel. -/
def estimateQuadric (solve : Solver) (obs : List (Mat3 × Mat34)) :
    Option Mat4 :=
  if obs.length < 3 then none
  else if validEllipsoid (symFromVec (solve (systemRows obs))) then
    some (normalizeQ (symFromVec (solve (systemRows obs))))
  else if validEllipsoid (-symFromVec (solve (systemRows obs))) then
    some (normalizeQ (-symFromVec (solve (systemRows obs))))
  else none

/-- Modelled from the spec: the Forward Projector (spec §4.4) — project a
(possibly undefined) quadric into the view with projection matrix `P` and
scale-normalize; the undefined sentinel propagates without computation. -/
def projectEllipse (Qo : Option Mat4) (P : Mat34) : Option Mat3 :=
  Qo.map (fun Q => normalizeC (projQ P Q))

/-- Modelled from the spec: the observation-gathering step (spec §4.3,
step 1) — for object `j`, the (Ellipse, ProjectionMatrix) pairs of exactly
the frames whose box slice for `j` is a real (non-sentinel) 4-value box. -/
def gatherObs (bbs : List (List ℚ)) (Ps : List Mat34) (j : Nat) :
    List (Mat3 × Mat34) :=
  (bbs.zip Ps).filterMap (fun bp =>
    if objBox bp.1 j = sentinelBox then none
    else (boxToEllipse? (objBox bp.1 j)).map (fun C => (C, bp.2)))

/-- The number of frames in which object `j` is visible, read off the
Visibility Resolver's output. -/
def countVisible (bbs : List (List ℚ)) (j : Nat) : Nat :=
  (((visibility bbs).filterMap (fun row => row[j]?)).filter (fun b => b)).length

/-- Modelled from the spec: the whole pipeline `compute_estimates`
(spec §2/§6) — per object the estimated quadric, and per (frame, object) the
forward-projected estimated ellipse. -/
def compute_estimates (solve : Solver) (bbs : List (List ℚ))
    (Ps : List Mat34) (nObj : Nat) :
    List (Option Mat4) × List (List (Option Mat3)) :=
  let estQs := (List.range nObj).map
    (fun j => estimateQuadric solve (gatherObs bbs Ps j))
  (estQs, Ps.map (fun P => estQs.map (fun Qo => projectEllipse Qo P)))

/-- A trivial solver returning the zero vector. -/
def zeroSolver : Solver := fun _ => 0

/-- A two-frame input in which object 0 is visible only in frame 1 and
object 1 only in frame 0. -/
def bbsDemo2 : List (List ℚ) := [demoRow, [5, 6, 7, 8, 1, 1, 1, 2]]

/-- Two zero projection matrices, one per frame of `bbsDemo2`. -/
def PsDemo : List Mat34 := [0, 0]

/-- A second two-frame input whose object-0 slices agree with `bbsDemo2`
while every other object's detections differ. -/
def bbsDemo2b : List (List ℚ) := [[1, 1, 1, 2, 9, 9, 9, 9],
  [5, 6, 7, 8, 2, 2, 2, 2]]

/-- A diagonal ground-truth ellipsoid (the unit sphere), in dual form. -/
def demoQ : Mat4 := !![1, 0, 0, 0; 0, 1, 0, 0; 0, 0, 1, 0; 0, 0, 0, -1]

/-- The dual quadric of the unit sphere centred at `(0, 0, 2)`: the block
structure `[I − c·cᵀ, −c; −cᵀ, −1]` for `c = (0, 0, 2)`.  Its raw top-left
block `diag(1, 1, −3)` is indefinite, but its translation-factored block is
the identity. -/
def offSphereQ : Mat4 :=
  !![1, 0, 0, 0; 0, 1, 0, 0; 0, 0, -3, -2; 0, 0, -2, -1]

/-- A solver that always answers with the entry vector of `demoQ`. -/
def diagSolver : Solver := fun _ => vecOfSym demoQ

/-- Three identical dummy observations (identity conic, zero camera). -/
def obsDemo : List (Mat3 × Mat34) := [(1, 0), (1, 0), (1, 0)]

/-- A camera selecting world coordinates (x, y, w). -/
def P1 : Mat34 := !![1, 0, 0, 0; 0, 1, 0, 0; 0, 0, 0, 1]

/-- A camera selecting world coordinates (x, z, w). -/
def P2 : Mat34 := !![1, 0, 0, 0; 0, 0, 1, 0; 0, 0, 0, 1]

/-- A camera selecting world coordinates (y, z, w). -/
def P3 : Mat34 := !![0, 1, 0, 0; 0, 0, 1, 0; 0, 0, 0, 1]

/-- The noiseless dual conic seen by each of the three cameras observing the
unit sphere `demoQ`. -/
def C1m : Mat3 := !![1, 0, 0; 0, 1, 0; 0, 0, -1]

/-- Three noiseless synthetic views of the unit sphere. -/
def obsGT : List (Mat3 × Mat34) := [(C1m, P1), (C1m, P2), (C1m, P3)]

/-- Entry `o` of a visibility row is defined exactly when `o` indexes a full
group of four values, and records whether that group differs from the
sentinel. -/
theorem visibilityRow_getElem (bb : List ℚ) (o : Nat)
    (ho : o < bb.length / NUM_BB_CORNER) :
    (visibilityRow bb)[o]? = some (decide (objBox bb o ≠ sentinelBox)) := by
  unfold visibilityRow
  rw [List.getElem?_map, List.getElem?_range]
  · rfl
  · exact ho

/-- C2. The Visibility Resolver classifies a (frame, object) entry as
visible iff its 4-value box is not exactly the sentinel `(1,1,1,2)`: the
frame's visibility row is `visibilityRow` of that frame's raw row alone, and
its entry `o` is exactly the test `objBox bb o ≠ sentinelBox` — exact
equality, no tolerance, independent of the frame index, the object index and
the other boxes of the frame. -/
theorem claim2_visibility_sentinel_rule (bbs : List (List ℚ)) (f o : Nat)
    (bb : List ℚ) (hf : bbs[f]? = some bb)
    (ho : o < bb.length / NUM_BB_CORNER) :
    (visibility bbs)[f]? = some (visibilityRow bb) ∧
      (visibilityRow bb)[o]? = some (decide (objBox bb o ≠ sentinelBox)) := by
  constructor
  · unfold visibility
    rw [List.getElem?_map, hf]
    rfl
  · exact visibilityRow_getElem bb o ho

theorem claim2_visibility_sentinel_rule_witness :
    ([demoRow][0]? = some demoRow) ∧
      (1 < demoRow.length / NUM_BB_CORNER) ∧
      ((visibility [demoRow])[0]? = some (visibilityRow demoRow) ∧
        (visibilityRow demoRow)[1]? =
          some (decide (objBox demoRow 1 ≠ sentinelBox))) :=
  ⟨rfl, by norm_num [demoRow, NUM_BB_CORNER],
    claim2_visibility_sentinel_rule [demoRow] 0 1 demoRow rfl
      (by norm_num [demoRow, NUM_BB_CORNER])⟩

/-- C3. On the hard-coded 8-frame, 6-object input of `main.dev.py`, the
frame-0 visibility row is `[True, False, False, True, False, False]`. -/
theorem claim3_frame0_visibility :
    (visibility bbsAldoma)[0]? =
      some [true, false, false, true, false, false] := by
  norm_num [visibility, bbsAldoma, visibilityRow, objBox, sentinelBox,
    NUM_BB_CORNER, List.range_succ, decide_eq_true_eq, decide_eq_false_iff_not]

/-- C10. A visibility row has exactly `⌊length / 4⌋` entries, one per
consecutive group of four values from the start of the raw row; trailing
values that do not complete a group of four are ignored (truncating the raw
row to its complete groups does not change the output). -/
theorem claim10_row_group_structure (bb : List ℚ) :
    (visibilityRow bb).length = bb.length / NUM_BB_CORNER ∧
      visibilityRow (bb.take (bb.length / NUM_BB_CORNER * NUM_BB_CORNER)) =
        visibilityRow bb ∧
      ∀ i, i < bb.length / NUM_BB_CORNER →
        (visibilityRow bb)[i]? = some (decide (objBox bb i ≠ sentinelBox)) := by
  refine ⟨by simp [visibilityRow], ?_, fun i hi => visibilityRow_getElem bb i hi⟩
  have hle : bb.length / NUM_BB_CORNER * NUM_BB_CORNER ≤ bb.length :=
    Nat.div_mul_le_self _ _
  have hlen : (bb.take (bb.length / NUM_BB_CORNER * NUM_BB_CORNER)).length =
      bb.length / NUM_BB_CORNER * NUM_BB_CORNER := by
    simp [Nat.min_eq_left hle]
  unfold visibilityRow
  rw [hlen, Nat.mul_div_cancel _ (by decide : 0 < NUM_BB_CORNER)]
  refine List.map_congr_left (fun i hi => ?_)
  rw [List.mem_range] at hi
  have h1 : (i + 1) * NUM_BB_CORNER ≤ bb.length / NUM_BB_CORNER * NUM_BB_CORNER :=
    Nat.mul_le_mul_right _ hi
  have h4 : NUM_BB_CORNER ≤ bb.length / NUM_BB_CORNER * NUM_BB_CORNER -
      i * NUM_BB_CORNER := by
    refine Nat.le_sub_of_add_le ?_
    rw [Nat.add_comm, ← Nat.succ_mul]
    exact h1
  unfold objBox
  rw [List.drop_take, List.take_take, Nat.min_eq_left h4]

theorem claim10_row_group_structure_witness :
    (visibilityRow demoRowTrailing).length =
        demoRowTrailing.length / NUM_BB_CORNER ∧
      visibilityRow (demoRowTrailing.take
          (demoRowTrailing.length / NUM_BB_CORNER * NUM_BB_CORNER)) =
        visibilityRow demoRowTrailing ∧
      (visibilityRow demoRowTrailing)[0]? =
        some (decide (objBox demoRowTrailing 0 ≠ sentinelBox)) :=
  ⟨(claim10_row_group_structure demoRowTrailing).1,
    (claim10_row_group_structure demoRowTrailing).2.1,
    (claim10_row_group_structure demoRowTrailing).2.2 0
      (by norm_num [demoRowTrailing, NUM_BB_CORNER])⟩

/-- A slice of exactly four values always converts to an ellipse. -/
theorem boxToEllipse?_isSome (b : List ℚ) (h : b.length = NUM_BB_CORNER) :
    ∃ C, boxToEllipse? b = some C := by
  rcases b with _ | ⟨x0, b⟩
  · simp [NUM_BB_CORNER] at h
  rcases b with _ | ⟨y0, b⟩
  · simp [NUM_BB_CORNER] at h
  rcases b with _ | ⟨x1, b⟩
  · simp [NUM_BB_CORNER] at h
  rcases b with _ | ⟨y1, b⟩
  · simp [NUM_BB_CORNER] at h
  rcases b with _ | ⟨z, b⟩
  · exact ⟨_, rfl⟩
  · simp [NUM_BB_CORNER] at h

/-- The observation set gathered for object `j` has exactly one element per
frame in which the Visibility Resolver marks `j` visible. -/
theorem gatherObs_length : ∀ (bbs : List (List ℚ)) (Ps : List Mat34) (j : Nat),
    bbs.length ≤ Ps.length →
    (∀ bb ∈ bbs, j * NUM_BB_CORNER + NUM_BB_CORNER ≤ bb.length) →
    (gatherObs bbs Ps j).length = countVisible bbs j
  | [], _, j, _, _ => by simp [gatherObs, countVisible, visibility]
  | bb :: t, [], j, hP, _ => by simp at hP
  | bb :: t, P :: Pt, j, hP, hwf => by
      have hlen : j * NUM_BB_CORNER + NUM_BB_CORNER ≤ bb.length :=
        hwf bb (by simp)
      have hj : j < bb.length / NUM_BB_CORNER := by
        have h1 : j + 1 ≤ bb.length / NUM_BB_CORNER := by
          refine (Nat.le_div_iff_mul_le (by decide)).2 ?_
          rw [Nat.succ_mul]
          omega
        omega
      have hbox : (objBox bb j).length = NUM_BB_CORNER := by
        simp only [objBox, List.length_take, List.length_drop]
        omega
      have ih := gatherObs_length t Pt j (by simpa using hP)
        (fun b hb => hwf b (by simp [hb]))
      have hvr := visibilityRow_getElem bb j hj
      by_cases hsen : objBox bb j = sentinelBox
      · have hd : decide (objBox bb j ≠ sentinelBox) = false := by
          simp [hsen]
        rw [hd] at hvr
        simp only [gatherObs, countVisible, visibility, List.map_cons,
          List.zip_cons_cons, List.filterMap_cons, hvr, if_pos hsen] at ih ⊢
        simpa [List.filter_cons] using ih
      · obtain ⟨C, hC⟩ := boxToEllipse?_isSome _ hbox
        have hd : decide (objBox bb j ≠ sentinelBox) = true := by
          simp [hsen]
        rw [hd] at hvr
        simp only [gatherObs, countVisible, visibility, List.map_cons,
          List.zip_cons_cons, List.filterMap_cons, hvr, if_neg hsen, hC] at ih ⊢
        simpa [List.filter_cons] using ih

/-- C1. An object marked visible by the Visibility Resolver in fewer than 3
frames gets the undefined sentinel quadric (all-NaN in the original code,
`none` here), whichever frames those are, and each of its forward-projected
per-frame ellipses is the undefined sentinel as well. -/
theorem claim1_insufficient_visibility_undefined (solve : Solver)
    (bbs : List (List ℚ)) (Ps : List Mat34) (j : Nat) (P : Mat34)
    (hP : bbs.length ≤ Ps.length)
    (hwf : ∀ bb ∈ bbs, j * NUM_BB_CORNER + NUM_BB_CORNER ≤ bb.length)
    (hvis : countVisible bbs j < 3) :
    estimateQuadric solve (gatherObs bbs Ps j) = none ∧
      projectEllipse (estimateQuadric solve (gatherObs bbs Ps j)) P = none := by
  have hlen : (gatherObs bbs Ps j).length < 3 := by
    rw [gatherObs_length bbs Ps j hP hwf]
    exact hvis
  have h1 : estimateQuadric solve (gatherObs bbs Ps j) = none := by
    unfold estimateQuadric
    rw [if_pos hlen]
  refine ⟨h1, ?_⟩
  rw [h1]
  rfl

theorem claim1_insufficient_visibility_undefined_witness :
    bbsDemo2.length ≤ PsDemo.length ∧
      (∀ bb ∈ bbsDemo2, 0 * NUM_BB_CORNER + NUM_BB_CORNER ≤ bb.length) ∧
      countVisible bbsDemo2 0 < 3 ∧
      (estimateQuadric zeroSolver (gatherObs bbsDemo2 PsDemo 0) = none ∧
        projectEllipse (estimateQuadric zeroSolver (gatherObs bbsDemo2 PsDemo 0))
          0 = none) := by
  have h1 : bbsDemo2.length ≤ PsDemo.length := by
    norm_num [bbsDemo2, PsDemo]
  have h2 : ∀ bb ∈ bbsDemo2, 0 * NUM_BB_CORNER + NUM_BB_CORNER ≤ bb.length := by
    intro bb hbb
    simp only [bbsDemo2, List.mem_cons, List.not_mem_nil, or_false] at hbb
    rcases hbb with rfl | rfl
    · norm_num [demoRow, NUM_BB_CORNER]
    · norm_num [NUM_BB_CORNER]
  have h3 : countVisible bbsDemo2 0 < 3 := by
    norm_num [countVisible, visibility, visibilityRow, bbsDemo2, demoRow,
      objBox, sentinelBox, NUM_BB_CORNER, List.range_succ, List.filterMap_cons,
      decide_eq_true_eq, decide_eq_false_iff_not]
  exact ⟨h1, h2, h3,
    claim1_insufficient_visibility_undefined zeroSolver bbsDemo2 PsDemo 0 0
      h1 h2 h3⟩

/-- Gathering observations for object `j` depends only on the box slices of
object `j`, frame by frame. -/
theorem gatherObs_congr : ∀ (bbs1 bbs2 : List (List ℚ)) (Ps : List Mat34)
    (j : Nat), bbs1.length = bbs2.length →
    (∀ f, f < bbs1.length →
      objBox (bbs1.getD f []) j = objBox (bbs2.getD f []) j) →
    gatherObs bbs1 Ps j = gatherObs bbs2 Ps j
  | [], [], _, _, _, _ => rfl
  | [], _ :: _, _, _, hlen, _ => by simp at hlen
  | _ :: _, [], _, _, hlen, _ => by simp at hlen
  | bb1 :: t1, bb2 :: t2, [], j, _, _ => by simp [gatherObs]
  | bb1 :: t1, bb2 :: t2, P :: Pt, j, hlen, hobj => by
      have hhead : objBox bb1 j = objBox bb2 j := by
        simpa using hobj 0 (by simp)
      have ih := gatherObs_congr t1 t2 Pt j (by simpa using hlen)
        (fun f hf => by simpa using hobj (f + 1) (by simp; omega))
      simp only [gatherObs] at ih ⊢
      simp only [List.zip_cons_cons, List.filterMap_cons, hhead, ih]

/-- C9. Per-object estimation is a deterministic function of that object's
own observation set: if two inputs agree, frame by frame, on object `j`'s
box slices (and so on its visibility and its ellipses), the estimated
quadric for `j` is the same, whatever happened to the other objects'
detections. -/
theorem claim9_per_object_independence (solve : Solver)
    (bbs1 bbs2 : List (List ℚ)) (Ps : List Mat34) (nObj j : Nat)
    (hlen : bbs1.length = bbs2.length)
    (hobj : ∀ f, f < bbs1.length →
      objBox (bbs1.getD f []) j = objBox (bbs2.getD f []) j) :
    estimateQuadric solve (gatherObs bbs1 Ps j) =
        estimateQuadric solve (gatherObs bbs2 Ps j) ∧
      (compute_estimates solve bbs1 Ps nObj).1[j]? =
        (compute_estimates solve bbs2 Ps nObj).1[j]? := by
  have hg := gatherObs_congr bbs1 bbs2 Ps j hlen hobj
  refine ⟨by rw [hg], ?_⟩
  rcases Nat.lt_or_ge j nObj with h | h
  · simp only [compute_estimates, List.getElem?_map, List.getElem?_range h,
      Option.map_some', hg]
  · have hnone : (List.range nObj)[j]? = none := by
      simp [List.getElem?_eq_none, h]
    simp only [compute_estimates, List.getElem?_map, hnone, Option.map_none']

theorem claim9_per_object_independence_witness :
    bbsDemo2.length = bbsDemo2b.length ∧
      (∀ f, f < bbsDemo2.length →
        objBox (bbsDemo2.getD f []) 0 = objBox (bbsDemo2b.getD f []) 0) ∧
      (estimateQuadric zeroSolver (gatherObs bbsDemo2 PsDemo 0) =
          estimateQuadric zeroSolver (gatherObs bbsDemo2b PsDemo 0) ∧
        (compute_estimates zeroSolver bbsDemo2 PsDemo 1).1[0]? =
          (compute_estimates zeroSolver bbsDemo2b PsDemo 1).1[0]?) := by
  have h1 : bbsDemo2.length = bbsDemo2b.length := by
    norm_num [bbsDemo2, bbsDemo2b]
  have h2 : ∀ f, f < bbsDemo2.length →
      objBox (bbsDemo2.getD f []) 0 = objBox (bbsDemo2b.getD f []) 0 := by
    intro f hf
    simp only [bbsDemo2, List.length_cons, List.length_nil] at hf
    rcases f with _ | _ | f
    · norm_num [bbsDemo2, bbsDemo2b, demoRow, objBox, NUM_BB_CORNER]
    · norm_num [bbsDemo2, bbsDemo2b, demoRow, objBox, NUM_BB_CORNER]
    · omega
  exact ⟨h1, h2,
    claim9_per_object_independence zeroSolver bbsDemo2 bbsDemo2b PsDemo 1 0
      h1 h2⟩

/-- C8. The Forward Projector returns `P · Q · Pᵗ` scale-normalized on a
defined quadric and propagates the undefined sentinel without computing; in
the pipeline, the frame-`f` row of estimated ellipses is exactly the
projector mapped independently over the per-object quadrics. -/
theorem claim8_forward_projector (solve : Solver) (bbs : List (List ℚ))
    (Ps : List Mat34) (nObj f : Nat) (P : Mat34) (Q : Mat4)
    (hf : f < Ps.length) :
    (compute_estimates solve bbs Ps nObj).2.getD f [] =
        (compute_estimates solve bbs Ps nObj).1.map
          (fun Qo => projectEllipse Qo (Ps.getD f 0)) ∧
      projectEllipse (some Q) P = some (normalizeC (P * Q * Pᵀ)) ∧
      projectEllipse none P = none := by
  refine ⟨?_, rfl, rfl⟩
  have hf2 : f < (Ps.map (fun P => ((List.range nObj).map
      (fun j => estimateQuadric solve (gatherObs bbs Ps j))).map
        (fun Qo => projectEllipse Qo P))).length := by
    simpa using hf
  simp only [compute_estimates]
  rw [List.getD_eq_getElem _ _ hf2, List.getElem_map, List.getD_eq_getElem _ _ hf]

theorem claim8_forward_projector_witness :
    (0 < PsDemo.length) ∧
      ((compute_estimates zeroSolver bbsDemo2 PsDemo 1).2.getD 0 [] =
          (compute_estimates zeroSolver bbsDemo2 PsDemo 1).1.map
            (fun Qo => projectEllipse Qo (PsDemo.getD 0 0)) ∧
        projectEllipse (some (1 : Mat4)) (0 : Mat34) =
          some (normalizeC ((0 : Mat34) * (1 : Mat4) * (0 : Mat34)ᵀ)) ∧
        projectEllipse none (0 : Mat34) = none) :=
  ⟨by norm_num [PsDemo],
    claim8_forward_projector zeroSolver bbsDemo2 PsDemo 1 0 (0 : Mat34)
      (1 : Mat4) (by norm_num [PsDemo])⟩

/-- Reshaping a 10-vector of unknowns always yields a symmetric matrix. -/
theorem symFromVec_symm (x : Fin 10 → ℚ) : (symFromVec x)ᵀ = symFromVec x := by
  ext i j
  fin_cases i <;> fin_cases j <;> rfl

/-- Reshaping the entry vector of a symmetric matrix recovers the matrix. -/
theorem symFromVec_vecOfSym (Q : Mat4) (h : Qᵀ = Q) :
    symFromVec (vecOfSym Q) = Q := by
  have h' : ∀ i j, Q j i = Q i j := fun i j => congrFun (congrFun h i) j
  ext i j
  fin_cases i <;> fin_cases j <;> first | rfl | exact h' _ _

/-- Scale normalization preserves symmetry. -/
theorem normalizeQ_symm (S : Mat4) (h : Sᵀ = S) :
    (normalizeQ S)ᵀ = normalizeQ S := by
  unfold normalizeQ
  split_ifs with h0
  · exact h
  · rw [Matrix.transpose_smul, h]

/-- Any defined output of the estimator is symmetric. -/
theorem estimateQuadric_symm (solve : Solver) (obs : List (Mat3 × Mat34))
    (Q : Mat4) (h : estimateQuadric solve obs = some Q) : Qᵀ = Q := by
  unfold estimateQuadric at h
  split_ifs at h with h1 h2 h3
  · obtain rfl := Option.some.inj h
    exact normalizeQ_symm _ (symFromVec_symm _)
  · obtain rfl := Option.some.inj h
    refine normalizeQ_symm _ ?_
    rw [Matrix.transpose_neg, symFromVec_symm]

/-- C6. Every defined quadric produced by the estimator is exactly symmetric,
and every dual-conic ellipse in the pipeline is symmetric: the converter's
input ellipses and the projector's output conics alike. -/
theorem claim6_symmetry (solve : Solver) (obs : List (Mat3 × Mat34))
    (Q : Mat4) (x0 y0 x1 y1 : ℚ) (P : Mat34)
    (h : estimateQuadric solve obs = some Q) :
    Qᵀ = Q ∧ (bboxToEllipse x0 y0 x1 y1)ᵀ = bboxToEllipse x0 y0 x1 y1 ∧
      (projQ P Q)ᵀ = projQ P Q := by
  have hQ := estimateQuadric_symm solve obs Q h
  refine ⟨hQ, ?_, ?_⟩
  · unfold bboxToEllipse
    simp only [Matrix.transpose_mul, Matrix.transpose_transpose,
      Matrix.diagonal_transpose, Matrix.mul_assoc]
  · unfold projQ
    simp only [Matrix.transpose_mul, Matrix.transpose_transpose, hQ,
      Matrix.mul_assoc]

theorem demoQ_symm : demoQᵀ = demoQ := by
  ext i j
  fin_cases i <;> fin_cases j <;> rfl

theorem normalizeQ_demoQ : normalizeQ demoQ = demoQ := by
  have h33 : demoQ 3 3 = -1 := by
    norm_num [demoQ, Matrix.cons_val_three, Matrix.head_cons, Matrix.tail_cons,
      Matrix.cons_val', Matrix.of_apply]
  unfold normalizeQ
  rw [h33]
  norm_num

theorem validEllipsoid_demoQ : validEllipsoid demoQ = true := by
  norm_num [validEllipsoid, dminor1, dminor2, dminor3, centeredBlock, demoQ,
    Matrix.cons_val_zero, Matrix.cons_val_one, Matrix.cons_val_two,
    Matrix.cons_val_three, Matrix.head_cons, Matrix.tail_cons,
    Matrix.cons_val', Matrix.of_apply, Matrix.empty_val',
    Matrix.cons_val_fin_one, Matrix.head_fin_const, Matrix.cons_val_succ,
    Matrix.vecHead, Matrix.vecTail]

/-- The validity check accepts genuine ellipsoids away from the origin: the
translation is factored out before definiteness is tested, so the unit
sphere centred at `(0, 0, 2)` — whose raw dual block `diag(1, 1, −3)` is
indefinite — passes. -/
theorem validEllipsoid_offSphereQ : validEllipsoid offSphereQ = true := by
  norm_num [validEllipsoid, dminor1, dminor2, dminor3, centeredBlock,
    offSphereQ,
    Matrix.cons_val_zero, Matrix.cons_val_one, Matrix.cons_val_two,
    Matrix.cons_val_three, Matrix.head_cons, Matrix.tail_cons,
    Matrix.cons_val', Matrix.of_apply, Matrix.empty_val',
    Matrix.cons_val_fin_one, Matrix.head_fin_const, Matrix.cons_val_succ,
    Matrix.vecHead, Matrix.vecTail]

theorem estimateQuadric_obsDemo :
    estimateQuadric diagSolver obsDemo = some demoQ := by
  have hS : symFromVec (diagSolver (systemRows obsDemo)) = demoQ :=
    symFromVec_vecOfSym demoQ demoQ_symm
  unfold estimateQuadric
  rw [if_neg (by norm_num [obsDemo]), hS, if_pos validEllipsoid_demoQ,
    normalizeQ_demoQ]

theorem claim6_symmetry_witness :
    estimateQuadric diagSolver obsDemo = some demoQ ∧
      (demoQᵀ = demoQ ∧
        (bboxToEllipse 1 2 3 4)ᵀ = bboxToEllipse 1 2 3 4 ∧
        (projQ 0 demoQ)ᵀ = projQ 0 demoQ) :=
  ⟨estimateQuadric_obsDemo,
    claim6_symmetry diagSolver obsDemo demoQ 1 2 3 4 0 estimateQuadric_obsDemo⟩

/-- Scaling a view's dual conic scales that view's constraint rows. -/
theorem viewRows_smul (s : ℚ) (C : Mat3) (P : Mat34) :
    viewRows (s • C) P = (viewRows C P).map (fun r k => s * r k) := by
  unfold viewRows
  rw [List.map_map]
  refine List.map_congr_left (fun pq _ => ?_)
  funext k
  simp only [Function.comp_apply, Matrix.smul_apply, smul_eq_mul]
  ring

/-- Row-wise rescaling by a nonzero scalar leaves the null space unchanged. -/
theorem inNullSpace_scale (s : ℚ) (hs : s ≠ 0) (rows : List (Fin 10 → ℚ))
    (x : Fin 10 → ℚ) :
    inNullSpace (rows.map (fun r k => s * r k)) x ↔ inNullSpace rows x := by
  unfold inNullSpace
  rw [List.forall_mem_map]
  refine forall₂_congr (fun r _ => ?_)
  have hsum : (∑ k, (fun k => s * r k) k * x k) = s * ∑ k, r k * x k := by
    rw [Finset.mul_sum]
    exact Finset.sum_congr rfl (fun k _ => by ring)
  rw [hsum]
  constructor
  · intro h0
    rcases mul_eq_zero.1 h0 with h | h
    · exact absurd h hs
    · exact h
  · intro h0
    rw [h0, mul_zero]

/-- The stacked system distributes over concatenated observation sets. -/
theorem systemRows_append (o1 o2 : List (Mat3 × Mat34)) :
    systemRows (o1 ++ o2) = systemRows o1 ++ systemRows o2 := by
  unfold systemRows
  rw [List.map_append, List.flatten_append]

/-- The stacked system of a cons: the head view's rows, then the rest. -/
theorem systemRows_cons (C : Mat3) (P : Mat34) (o : List (Mat3 × Mat34)) :
    systemRows ((C, P) :: o) = viewRows C P ++ systemRows o := by
  unfold systemRows
  rw [List.map_cons, List.flatten_cons]

/-- Null-space membership splits over concatenated row blocks. -/
theorem inNullSpace_append (l1 l2 : List (Fin 10 → ℚ)) (x : Fin 10 → ℚ) :
    inNullSpace (l1 ++ l2) x ↔ inNullSpace l1 x ∧ inNullSpace l2 x := by
  unfold inNullSpace
  rw [List.forall_mem_append]

/-- C7. Rescaling one individual input dual conic — a single view's ellipse,
at any position in the observation set — by any nonzero scalar scales only
that view's constraint rows, leaving the stacked system's solution set
unchanged; a solver whose answer depends only on that solution set (the
spec's SVD on exactly consistent data) therefore recovers the identical
quadric.  Positive and negative multiples of an input ellipse represent the
same geometric object. -/
theorem claim7_scale_invariance (solve : Solver)
    (hks : KernelRespecting solve) (s : ℚ) (hs : s ≠ 0)
    (pre post : List (Mat3 × Mat34)) (C : Mat3) (P : Mat34) :
    estimateQuadric solve (pre ++ (s • C, P) :: post) =
      estimateQuadric solve (pre ++ (C, P) :: post) := by
  have hsolve : solve (systemRows (pre ++ (s • C, P) :: post)) =
      solve (systemRows (pre ++ (C, P) :: post)) := by
    refine hks _ _ (fun x => ?_)
    have hmid : inNullSpace (viewRows (s • C) P) x ↔
        inNullSpace (viewRows C P) x := by
      rw [viewRows_smul]
      exact inNullSpace_scale s hs (viewRows C P) x
    rw [systemRows_append, systemRows_append, systemRows_cons,
      systemRows_cons, inNullSpace_append, inNullSpace_append,
      inNullSpace_append, inNullSpace_append, hmid]
  have hlen : (pre ++ (s • C, P) :: post).length =
      (pre ++ (C, P) :: post).length := by
    simp
  unfold estimateQuadric
  rw [hsolve, hlen]

theorem claim7_scale_invariance_witness :
    KernelRespecting diagSolver ∧ (2 : ℚ) ≠ 0 ∧
      estimateQuadric diagSolver
          ([((1 : Mat3), (0 : Mat34))] ++
            ((2 : ℚ) • (1 : Mat3), (0 : Mat34)) :: [((1 : Mat3), (0 : Mat34))]) =
        estimateQuadric diagSolver
          ([((1 : Mat3), (0 : Mat34))] ++
            ((1 : Mat3), (0 : Mat34)) :: [((1 : Mat3), (0 : Mat34))]) :=
  ⟨fun _ _ _ => rfl, by norm_num,
    claim7_scale_invariance diagSolver (fun _ _ _ => rfl) 2 (by norm_num)
      [((1 : Mat3), (0 : Mat34))] [((1 : Mat3), (0 : Mat34))] 1 0⟩

/-- Summing the indicator coefficients of one coordinate picks out that
coordinate. -/
theorem entry_sum_aux (y : Fin 10 → ℚ) (m : Fin 10) :
    ∑ k, (if m = k then (1 : ℚ) else 0) * y k = y m := by
  rw [Finset.sum_eq_single m]
  · rw [if_pos rfl, one_mul]
  · intro b _ hb
    rw [if_neg (fun h => hb h.symm), zero_mul]
  · intro h
    exact absurd (Finset.mem_univ m) h

/-- Entrywise linearity of the reshaping map. -/
theorem symFromVec_entry_sum (y : Fin 10 → ℚ) (i j : Fin 4) :
    ∑ k, symFromVec (basisVec k) i j * y k = symFromVec y i j := by
  fin_cases i <;> fin_cases j <;> exact entry_sum_aux y _

/-- Every candidate quadric decomposes over the symmetric basis matrices. -/
theorem symFromVec_decomp (y : Fin 10 → ℚ) :
    symFromVec y = ∑ k, y k • symFromVec (basisVec k) := by
  ext i j
  rw [Matrix.sum_apply, ← symFromVec_entry_sum y i j]
  refine Finset.sum_congr rfl (fun k _ => ?_)
  rw [Matrix.smul_apply, smul_eq_mul, mul_comm]

/-- The projected quadric is linear in the 10 unknowns: summing the
per-basis-matrix projections against a coordinate vector projects the
reshaped vector. -/
theorem projQ_linear (P : Mat34) (y : Fin 10 → ℚ) (a b : Fin 3) :
    ∑ k, projQ P (symFromVec (basisVec k)) a b * y k =
      projQ P (symFromVec y) a b := by
  conv_rhs => rw [symFromVec_decomp y]
  unfold projQ
  rw [Matrix.mul_sum, Matrix.sum_mul, Matrix.sum_apply]
  refine Finset.sum_congr rfl (fun k _ => ?_)
  rw [Matrix.mul_smul, Matrix.smul_mul, Matrix.smul_apply, smul_eq_mul,
    mul_comm]

/-- A cross-multiplication row dotted with a coordinate vector evaluates on
the projected reshaped quadric. -/
theorem row_dot (C : Mat3) (P : Mat34) (y : Fin 10 → ℚ) (a b c d : Fin 3) :
    (∑ k, (C a b * projQ P (symFromVec (basisVec k)) c d -
        C c d * projQ P (symFromVec (basisVec k)) a b) * y k) =
      C a b * projQ P (symFromVec y) c d -
        C c d * projQ P (symFromVec y) a b := by
  rw [← projQ_linear P y c d, ← projQ_linear P y a b, Finset.mul_sum,
    Finset.mul_sum, ← Finset.sum_sub_distrib]
  refine Finset.sum_congr rfl (fun k _ => ?_)
  ring

/-- On noiseless data — every observed conic a nonzero multiple of the
ground-truth projection — the ground-truth entry vector lies in the null
space of the stacked system: the cross-multiplication construction is sound. -/
theorem gt_inNullSpace (obs : List (Mat3 × Mat34)) (Qstar : Mat4)
    (hsym : Qstarᵀ = Qstar)
    (hnl : ∀ cp ∈ obs, ∃ s : ℚ, s ≠ 0 ∧ cp.1 = s • projQ cp.2 Qstar) :
    inNullSpace (systemRows obs) (vecOfSym Qstar) := by
  intro r hr
  rw [systemRows, List.mem_flatten] at hr
  obtain ⟨rows, hrows, hrmem⟩ := hr
  rw [List.mem_map] at hrows
  obtain ⟨cp, hcp, rfl⟩ := hrows
  unfold viewRows at hrmem
  rw [List.mem_map] at hrmem
  obtain ⟨pq, hpq, rfl⟩ := hrmem
  obtain ⟨s, hs, hC⟩ := hnl cp hcp
  have hC' : cp.1 = s • projQ cp.2 Qstar := hC
  rw [row_dot, symFromVec_vecOfSym Qstar hsym, hC']
  simp only [Matrix.smul_apply, smul_eq_mul]
  ring

/-- Membership form of the null-space condition: every observation and every
entry pair yields a vanishing cross product on the reshaped vector. -/
theorem systemRows_mem_dot (obs : List (Mat3 × Mat34)) (y : Fin 10 → ℚ)
    (hy : inNullSpace (systemRows obs) y) :
    ∀ cp ∈ obs, ∀ pq ∈ entryPairs,
      cp.1 pq.1.1 pq.1.2 * projQ cp.2 (symFromVec y) pq.2.1 pq.2.2 -
        cp.1 pq.2.1 pq.2.2 * projQ cp.2 (symFromVec y) pq.1.1 pq.1.2 = 0 := by
  intro cp hcp pq hpq
  rw [← row_dot]
  refine hy _ ?_
  rw [systemRows, List.mem_flatten]
  refine ⟨viewRows cp.1 cp.2, List.mem_map_of_mem _ hcp, ?_⟩
  unfold viewRows
  exact List.mem_map_of_mem _ hpq

/-- Reshaping commutes with scalar multiplication. -/
theorem symFromVec_smul (c : ℚ) (y : Fin 10 → ℚ) :
    symFromVec (c • y) = c • symFromVec y := by
  ext i j
  fin_cases i <;> fin_cases j <;> rfl

/-- The validity check, spelt out. -/
theorem validEllipsoid_iff (Q : Mat4) :
    validEllipsoid Q = true ↔
      Q 3 3 ≠ 0 ∧ 0 < dminor1 (centeredBlock Q) ∧
        0 < dminor2 (centeredBlock Q) ∧ 0 < dminor3 (centeredBlock Q) := by
  simp [validEllipsoid, and_assoc]

/-- Common rescaling of the three factors of a quotient. -/
theorem div_smul_aux (s b c d : ℚ) (hs : s ≠ 0) :
    s * b * (s * c) / (s * d) = s * (b * c / d) := by
  rcases eq_or_ne d 0 with rfl | hd
  · simp
  · field_simp
    ring

/-- One entry of the translation-factored block, under rescaling. -/
theorem centered_entry_smul (s a b c d : ℚ) (hs : s ≠ 0) :
    s * a - s * b * (s * c) / (s * d) = s * (a - b * c / d) := by
  rw [div_smul_aux _ _ _ _ hs]
  ring

/-- The translation-factored block scales linearly with the quadric. -/
theorem centeredBlock_smul (s : ℚ) (hs : s ≠ 0) (Q : Mat4) :
    centeredBlock (s • Q) = s • centeredBlock Q := by
  ext i j
  fin_cases i <;> fin_cases j <;>
    exact centered_entry_smul s _ _ _ _ hs

theorem dminor1_smul (c : ℚ) (B : Mat3) : dminor1 (c • B) = c * dminor1 B := by
  simp only [dminor1, Matrix.smul_apply, smul_eq_mul]

theorem dminor2_smul (c : ℚ) (B : Mat3) :
    dminor2 (c • B) = c ^ 2 * dminor2 B := by
  simp only [dminor2, Matrix.smul_apply, smul_eq_mul]
  ring

theorem dminor3_smul (c : ℚ) (B : Mat3) :
    dminor3 (c • B) = c ^ 3 * dminor3 B := by
  simp only [dminor3, Matrix.smul_apply, smul_eq_mul]
  ring

/-- Normalizing a nonzero multiple of a quadric yields a nonzero multiple of
the quadric. -/
theorem normalizeQ_smul (c : ℚ) (hc : c ≠ 0) (Q : Mat4) :
    ∃ d : ℚ, d ≠ 0 ∧ normalizeQ (c • Q) = d • Q := by
  unfold normalizeQ
  simp only [Matrix.smul_apply, smul_eq_mul]
  by_cases h33 : Q 3 3 = 0
  · rw [if_pos (by rw [h33, mul_zero])]
    exact ⟨c, hc, rfl⟩
  · rw [if_neg (mul_ne_zero hc h33)]
    refine ⟨-(Q 3 3)⁻¹, by simp [h33], ?_⟩
    rw [smul_smul]
    congr 1
    field_simp

/-- The estimator's output on a system whose null space is spanned by a valid
ground truth: a nonzero multiple of the ground truth, with the sign flip
applied exactly when the solver's null vector points the wrong way. -/
theorem estimate_recovers (solve : Solver) (obs : List (Mat3 × Mat34))
    (Qstar : Mat4) (hsym : Qstarᵀ = Qstar)
    (hvalid : validEllipsoid Qstar = true) (hlen : 3 ≤ obs.length)
    (hsolve : inNullSpace (systemRows obs) (solve (systemRows obs)))
    (hx : solve (systemRows obs) ≠ 0)
    (hker : ∀ y, inNullSpace (systemRows obs) y →
      ∃ c : ℚ, y = c • vecOfSym Qstar) :
    ∃ c : ℚ, c ≠ 0 ∧ estimateQuadric solve obs = some (c • Qstar) := by
  obtain ⟨c, hc⟩ := hker _ hsolve
  have hc0 : c ≠ 0 := by
    rintro rfl
    rw [zero_smul] at hc
    exact hx hc
  have hS : symFromVec (solve (systemRows obs)) = c • Qstar := by
    rw [hc, symFromVec_smul, symFromVec_vecOfSym Qstar hsym]
  obtain ⟨hQ33, m1, m2, m3⟩ := (validEllipsoid_iff Qstar).1 hvalid
  have hnl3 : ¬obs.length < 3 := Nat.not_lt.2 hlen
  rcases lt_trichotomy c 0 with hneg | hzero | hpos
  · have hvneg : ¬validEllipsoid (c • Qstar) = true := by
      intro hvt
      obtain ⟨_, k1, _, _⟩ := (validEllipsoid_iff _).1 hvt
      rw [centeredBlock_smul c hc0, dminor1_smul] at k1
      nlinarith
    have hnc : (0 : ℚ) < -c := by linarith
    have hvpos : validEllipsoid ((-c) • Qstar) = true := by
      refine (validEllipsoid_iff _).2 ⟨?_, ?_, ?_, ?_⟩
      · simp only [Matrix.smul_apply, smul_eq_mul]
        exact mul_ne_zero (ne_of_gt hnc) hQ33
      · rw [centeredBlock_smul _ (ne_of_gt hnc), dminor1_smul]
        exact mul_pos hnc m1
      · rw [centeredBlock_smul _ (ne_of_gt hnc), dminor2_smul]
        exact mul_pos (pow_pos hnc 2) m2
      · rw [centeredBlock_smul _ (ne_of_gt hnc), dminor3_smul]
        exact mul_pos (pow_pos hnc 3) m3
    obtain ⟨d, hd0, hdQ⟩ := normalizeQ_smul (-c) (ne_of_gt hnc) Qstar
    refine ⟨d, hd0, ?_⟩
    unfold estimateQuadric
    rw [if_neg hnl3, hS, if_neg hvneg, ← neg_smul, if_pos hvpos, hdQ]
  · exact absurd hzero hc0
  · have hvpos : validEllipsoid (c • Qstar) = true := by
      refine (validEllipsoid_iff _).2 ⟨?_, ?_, ?_, ?_⟩
      · simp only [Matrix.smul_apply, smul_eq_mul]
        exact mul_ne_zero hc0 hQ33
      · rw [centeredBlock_smul c hc0, dminor1_smul]
        exact mul_pos hpos m1
      · rw [centeredBlock_smul c hc0, dminor2_smul]
        exact mul_pos (pow_pos hpos 2) m2
      · rw [centeredBlock_smul c hc0, dminor3_smul]
        exact mul_pos (pow_pos hpos 3) m3
    obtain ⟨d, hd0, hdQ⟩ := normalizeQ_smul c hc0 Qstar
    refine ⟨d, hd0, ?_⟩
    unfold estimateQuadric
    rw [if_neg hnl3, hS, if_pos hvpos, hdQ]

/-- C4. On noiseless synthetic data from a valid ground-truth ellipsoid —
every input conic a nonzero multiple of the ground truth's projection — the
ground truth satisfies the stacked system exactly, and whenever the views
determine the null space up to scale and the solver returns a nonzero null
vector (the spec's SVD behaviour in the exactly consistent case), the
estimator's output is the ground-truth quadric up to a nonzero scalar. -/
theorem claim4_noiseless_recovery (solve : Solver)
    (obs : List (Mat3 × Mat34)) (Qstar : Mat4) (hsym : Qstarᵀ = Qstar)
    (hvalid : validEllipsoid Qstar = true) (hlen : 3 ≤ obs.length)
    (hnl : ∀ cp ∈ obs, ∃ s : ℚ, s ≠ 0 ∧ cp.1 = s • projQ cp.2 Qstar)
    (hsolve : inNullSpace (systemRows obs) (solve (systemRows obs)))
    (hx : solve (systemRows obs) ≠ 0)
    (hker : ∀ y, inNullSpace (systemRows obs) y →
      ∃ c : ℚ, y = c • vecOfSym Qstar) :
    inNullSpace (systemRows obs) (vecOfSym Qstar) ∧
      ∃ c : ℚ, c ≠ 0 ∧ estimateQuadric solve obs = some (c • Qstar) :=
  ⟨gt_inNullSpace obs Qstar hsym hnl,
    estimate_recovers solve obs Qstar hsym hvalid hlen hsolve hx hker⟩

/-- Projection commutes with rescaling the quadric. -/
theorem projQ_smul (P : Mat34) (c : ℚ) (Q : Mat4) :
    projQ P (c • Q) = c • projQ P Q := by
  unfold projQ
  rw [Matrix.mul_smul, Matrix.smul_mul]

/-- Conic scale normalization is invariant under nonzero rescaling as long
as the reference entry is nonzero. -/
theorem normalizeC_smul (t : ℚ) (ht : t ≠ 0) (C : Mat3) (h22 : C 2 2 ≠ 0) :
    normalizeC (t • C) = normalizeC C := by
  unfold normalizeC
  simp only [Matrix.smul_apply, smul_eq_mul]
  rw [if_neg (mul_ne_zero ht h22), if_neg h22, smul_smul]
  congr 1
  field_simp

/-- C5. Round trip on noiseless synthetic data: for a view that took part in
the estimation (with nondegenerate reference entry), forward-projecting the
recovered quadric through that view's projection matrix reproduces the
view's input ellipse after matching scale normalization. -/
theorem claim5_round_trip (solve : Solver) (obs : List (Mat3 × Mat34))
    (Qstar : Mat4) (C : Mat3) (P : Mat34) (hsym : Qstarᵀ = Qstar)
    (hvalid : validEllipsoid Qstar = true) (hlen : 3 ≤ obs.length)
    (hnl : ∀ cp ∈ obs, ∃ s : ℚ, s ≠ 0 ∧ cp.1 = s • projQ cp.2 Qstar)
    (hsolve : inNullSpace (systemRows obs) (solve (systemRows obs)))
    (hx : solve (systemRows obs) ≠ 0)
    (hker : ∀ y, inNullSpace (systemRows obs) y →
      ∃ c : ℚ, y = c • vecOfSym Qstar)
    (hmem : (C, P) ∈ obs) (h22 : C 2 2 ≠ 0) :
    ∃ Q, estimateQuadric solve obs = some Q ∧
      projectEllipse (some Q) P = some (normalizeC C) := by
  obtain ⟨c, hc0, hest⟩ :=
    estimate_recovers solve obs Qstar hsym hvalid hlen hsolve hx hker
  obtain ⟨s, hs0, hC⟩ := hnl (C, P) hmem
  have hC' : C = s • projQ P Qstar := hC
  have hpq : projQ P Qstar = s⁻¹ • C := by
    rw [hC', smul_smul, inv_mul_cancel₀ hs0, one_smul]
  have hproj : projQ P (c • Qstar) = (c * s⁻¹) • C := by
    rw [projQ_smul, hpq, smul_smul]
  refine ⟨c • Qstar, hest, ?_⟩
  show some (normalizeC (projQ P (c • Qstar))) = some (normalizeC C)
  rw [hproj, normalizeC_smul _ (mul_ne_zero hc0 (inv_ne_zero hs0)) C h22]

theorem projQ_P1_demoQ : projQ P1 demoQ = C1m := by
  ext i j
  fin_cases i <;> fin_cases j <;>
    norm_num [projQ, P1, C1m, demoQ, Matrix.mul_apply, Fin.sum_univ_four,
      Matrix.transpose_apply, Matrix.cons_val_zero, Matrix.cons_val_one,
      Matrix.cons_val_two, Matrix.cons_val_three, Matrix.head_cons,
      Matrix.tail_cons, Matrix.cons_val', Matrix.of_apply, Matrix.empty_val',
      Matrix.cons_val_fin_one, Matrix.head_fin_const, Matrix.vecHead,
      Matrix.vecTail]

theorem projQ_P2_demoQ : projQ P2 demoQ = C1m := by
  ext i j
  fin_cases i <;> fin_cases j <;>
    norm_num [projQ, P2, C1m, demoQ, Matrix.mul_apply, Fin.sum_univ_four,
      Matrix.transpose_apply, Matrix.cons_val_zero, Matrix.cons_val_one,
      Matrix.cons_val_two, Matrix.cons_val_three, Matrix.head_cons,
      Matrix.tail_cons, Matrix.cons_val', Matrix.of_apply, Matrix.empty_val',
      Matrix.cons_val_fin_one, Matrix.head_fin_const, Matrix.vecHead,
      Matrix.vecTail]

theorem projQ_P3_demoQ : projQ P3 demoQ = C1m := by
  ext i j
  fin_cases i <;> fin_cases j <;>
    norm_num [projQ, P3, C1m, demoQ, Matrix.mul_apply, Fin.sum_univ_four,
      Matrix.transpose_apply, Matrix.cons_val_zero, Matrix.cons_val_one,
      Matrix.cons_val_two, Matrix.cons_val_three, Matrix.head_cons,
      Matrix.tail_cons, Matrix.cons_val', Matrix.of_apply, Matrix.empty_val',
      Matrix.cons_val_fin_one, Matrix.head_fin_const, Matrix.vecHead,
      Matrix.vecTail]

theorem obsGT_noiseless :
    ∀ cp ∈ obsGT, ∃ s : ℚ, s ≠ 0 ∧ cp.1 = s • projQ cp.2 demoQ := by
  intro cp hcp
  simp only [obsGT, List.mem_cons, List.not_mem_nil, or_false] at hcp
  rcases hcp with rfl | rfl | rfl
  · exact ⟨1, one_ne_zero, by rw [projQ_P1_demoQ, one_smul]⟩
  · exact ⟨1, one_ne_zero, by rw [projQ_P2_demoQ, one_smul]⟩
  · exact ⟨1, one_ne_zero, by rw [projQ_P3_demoQ, one_smul]⟩

theorem diagSolver_ne_zero : diagSolver (systemRows obsGT) ≠ 0 := by
  intro h
  have h0 := congrFun h 0
  norm_num [diagSolver, vecOfSym, demoQ, Matrix.cons_val_zero,
    Matrix.head_cons, Matrix.cons_val', Matrix.of_apply, Pi.zero_apply] at h0

set_option maxHeartbeats 2000000 in
/-- For the three coordinate cameras observing the unit sphere, the stacked
system's null space is exactly the line spanned by the ground truth's entry
vector. -/
theorem obsGT_kernel : ∀ y : Fin 10 → ℚ, inNullSpace (systemRows obsGT) y →
    ∃ c : ℚ, y = c • vecOfSym demoQ := by
  intro y hy
  have h := systemRows_mem_dot obsGT y hy
  have hm1 : ((C1m, P1) : Mat3 × Mat34) ∈ obsGT := by simp [obsGT]
  have hm2 : ((C1m, P2) : Mat3 × Mat34) ∈ obsGT := by simp [obsGT]
  have hm3 : ((C1m, P3) : Mat3 × Mat34) ∈ obsGT := by simp [obsGT]
  have e11 := h _ hm1 ((0, 0), (0, 1)) (by decide)
  have e12 := h _ hm1 ((0, 0), (0, 2)) (by decide)
  have e13 := h _ hm1 ((0, 0), (1, 1)) (by decide)
  have e14 := h _ hm1 ((0, 0), (1, 2)) (by decide)
  have e15 := h _ hm1 ((0, 0), (2, 2)) (by decide)
  have e21 := h _ hm2 ((0, 0), (0, 1)) (by decide)
  have e23 := h _ hm2 ((0, 0), (1, 1)) (by decide)
  have e24 := h _ hm2 ((0, 0), (1, 2)) (by decide)
  have e31 := h _ hm3 ((0, 0), (0, 1)) (by decide)
  simp only [C1m, P1, P2, P3, projQ, symFromVec, Matrix.mul_apply,
    Fin.sum_univ_four, Matrix.transpose_apply, Matrix.cons_val_zero,
    Matrix.cons_val_one, Matrix.cons_val_two, Matrix.cons_val_three,
    Matrix.head_cons, Matrix.tail_cons, Matrix.cons_val', Matrix.of_apply,
    Matrix.empty_val', Matrix.cons_val_fin_one, Matrix.head_fin_const,
    Matrix.cons_val_succ, Matrix.vecHead, Matrix.vecTail, Function.comp]
    at e11 e12 e13 e14 e15 e21 e23 e24 e31
  ring_nf at e11 e12 e13 e14 e15 e21 e23 e24 e31
  refine ⟨y 0, funext fun k => ?_⟩
  fin_cases k
  · show y 0 = y 0 * 1
    ring
  · show y 1 = y 0 * 0
    linarith
  · show y 2 = y 0 * 0
    linarith
  · show y 3 = y 0 * 0
    linarith
  · show y 4 = y 0 * 1
    linarith
  · show y 5 = y 0 * 0
    linarith
  · show y 6 = y 0 * 0
    linarith
  · show y 7 = y 0 * 1
    linarith
  · show y 8 = y 0 * 0
    linarith
  · show y 9 = y 0 * -1
    linarith

theorem claim4_noiseless_recovery_witness :
    (demoQᵀ = demoQ) ∧ validEllipsoid demoQ = true ∧ 3 ≤ obsGT.length ∧
      (∀ cp ∈ obsGT, ∃ s : ℚ, s ≠ 0 ∧ cp.1 = s • projQ cp.2 demoQ) ∧
      inNullSpace (systemRows obsGT) (diagSolver (systemRows obsGT)) ∧
      diagSolver (systemRows obsGT) ≠ 0 ∧
      (∀ y, inNullSpace (systemRows obsGT) y →
        ∃ c : ℚ, y = c • vecOfSym demoQ) ∧
      (inNullSpace (systemRows obsGT) (vecOfSym demoQ) ∧
        ∃ c : ℚ, c ≠ 0 ∧ estimateQuadric diagSolver obsGT = some (c • demoQ)) := by
  have hlen : 3 ≤ obsGT.length := by norm_num [obsGT]
  have hsolve : inNullSpace (systemRows obsGT) (diagSolver (systemRows obsGT)) :=
    gt_inNullSpace obsGT demoQ demoQ_symm obsGT_noiseless
  exact ⟨demoQ_symm, validEllipsoid_demoQ, hlen, obsGT_noiseless, hsolve,
    diagSolver_ne_zero, obsGT_kernel,
    claim4_noiseless_recovery diagSolver obsGT demoQ demoQ_symm
      validEllipsoid_demoQ hlen obsGT_noiseless hsolve diagSolver_ne_zero
      obsGT_kernel⟩

theorem claim5_round_trip_witness :
    (((C1m, P1) : Mat3 × Mat34) ∈ obsGT) ∧ C1m 2 2 ≠ 0 ∧
      ∃ Q, estimateQuadric diagSolver obsGT = some Q ∧
        projectEllipse (some Q) P1 = some (normalizeC C1m) := by
  have hmem : ((C1m, P1) : Mat3 × Mat34) ∈ obsGT := by simp [obsGT]
  have h22 : C1m 2 2 ≠ 0 := by
    norm_num [C1m, Matrix.cons_val_two, Matrix.head_cons, Matrix.tail_cons,
      Matrix.cons_val', Matrix.of_apply, Matrix.vecHead, Matrix.vecTail]
  exact ⟨hmem, h22,
    claim5_round_trip diagSolver obsGT demoQ C1m P1 demoQ_symm
      validEllipsoid_demoQ (by norm_num [obsGT]) obsGT_noiseless
      (gt_inNullSpace obsGT demoQ demoQ_symm obsGT_noiseless)
      diagSolver_ne_zero obsGT_kernel hmem h22⟩
